import Mathlib

set_option maxRecDepth 10000

/-!
Verification of the BART longest-prefix-match routing table (header `src/bart.h`).

The repository ships only the C contract (`bart.h`); the data structure and the
two algorithms (insert, longest-match lookup) are specified in the accompanying
design document.  Every definition below that embeds a missing implementation
is therefore marked `Modelled from the spec:` and follows the specification
text (sections 3, 4.1 to 4.5 and 6) literally: a sparse indexed directory is a
presence bitmap plus a rank-addressed dense array, a stride node holds one
512-universe directory of stored values and one 256-universe directory of
children, and the table owns two roots (IPv4 and IPv6).
-/

namespace Bart

/-- Modelled from the spec: presence test of the Sparse Indexed Directory
(spec 4.1, `has(i)`), a bitmap bit test; the implementation is absent from the
repository (only `bart.h` exists). -/
def dirHas (bm : List Bool) (i : Nat) : Bool := (bm[i]?).getD false

/-- Modelled from the spec: the rank of index `i`, the population count of the
bitmap bits strictly below `i` (spec 3 and 4.1). -/
def dirRank (bm : List Bool) (i : Nat) : Nat := (bm.take i).countP id

/-- Modelled from the spec: `get(i)` of the Sparse Indexed Directory
(spec 4.1): bitmap test, then a rank-indexed read of the dense array. -/
def dirGet (bm : List Bool) (dense : List α) (i : Nat) : Option α :=
  if dirHas bm i then dense[dirRank bm i]? else none

/-- Insertion of an element at position `n` of a list (used by `dirSet` for
the dense-array shift described in spec 4.1). -/
def insertAt (l : List α) (n : Nat) (v : α) : List α := l.take n ++ v :: l.drop n

/-- Modelled from the spec: `set(i, v)` of the Sparse Indexed Directory
(spec 4.1): overwrite the dense entry in place when present, otherwise set the
bitmap bit and insert at position `rank` of the dense array. -/
def dirSet (bm : List Bool) (dense : List α) (i : Nat) (v : α) : List Bool × List α :=
  if dirHas bm i then (bm, dense.set (dirRank bm i) v)
  else (bm.set i true, insertAt dense (dirRank bm i) v)

/-- Modelled from the spec: the Complete-Binary-Tree Prefix Index
(spec 3 and 4.2): `index(o, b) = (1 <<< b) + (o >>> (8 - b))` for a byte value
`o` and a significant-bit count `b`. -/
def index (o bits : Nat) : Nat := (1 <<< bits) + (o >>> (8 - bits))

/-- Modelled from the spec: one Stride Node (spec 3): a prefix directory over
universe 512 (bitmap `pb`, dense value array `pd`) and a child directory over
universe 256 (bitmap `cb`, dense child array `cd`). -/
inductive StrideNode : Type where
  | mk : List Bool → List Nat → List Bool → List StrideNode → StrideNode

def StrideNode.pb : StrideNode → List Bool
  | .mk x _ _ _ => x

def StrideNode.pd : StrideNode → List Nat
  | .mk _ x _ _ => x

def StrideNode.cb : StrideNode → List Bool
  | .mk _ _ x _ => x

def StrideNode.cd : StrideNode → List StrideNode
  | .mk _ _ _ x => x

/-- Modelled from the spec: a freshly allocated, empty Stride Node (spec 3):
both directories empty. -/
def emptyNode : StrideNode :=
  .mk (List.replicate 512 false) [] (List.replicate 256 false) []

/-- Modelled from the spec: `store_prefix(bits, byte, value)` of a Stride Node
(spec 4.3): computes the Complete-Binary-Tree index and writes into the
node's value directory. -/
def storePfx (n : StrideNode) (bits byte v : Nat) : StrideNode :=
  let r := dirSet n.pb n.pd (index byte bits) v
  .mk r.1 r.2 n.cb n.cd

/-- Modelled from the spec: attaching (or replacing) the child for byte `b`
of a Stride Node, the write half of `ensure_child` (spec 4.3). -/
def setChild (n : StrideNode) (b : Nat) (c : StrideNode) : StrideNode :=
  let r := dirSet n.cb n.cd b c
  .mk n.pb n.pd r.1 r.2

/-- Modelled from the spec: `child_for(byte)` of a Stride Node (spec 4.3). -/
def childFor (n : StrideNode) (b : Nat) : Option StrideNode :=
  dirGet n.cb n.cd b

/-- Modelled from the spec: the read half of `ensure_child` (spec 4.3):
the existing child for `b`, or a new empty node. -/
def childOr (n : StrideNode) (b : Nat) : StrideNode := (childFor n b).getD emptyNode

/-- Modelled from the spec: the descent loop of insert (spec 4.4 steps 3-5):
walk `ensure_child` along `path`, then store `(bits, sb)` with value `v` in the
node reached.  Functionally, each visited node is rebuilt with its updated
child reattached. -/
def insertNode (n : StrideNode) (path : List Nat) (bits sb v : Nat) : StrideNode :=
  match path with
  | [] => storePfx n bits sb v
  | b :: rest => setChild n b (insertNode (childOr n b) rest bits sb v)

/-- Modelled from the spec: the ancestor walk (spec 4.2): starting from an
index, return the first present entry while repeatedly halving; not-found when
the index reaches 0. -/
def ancestorWalk (bmp : List Bool) (dense : List Nat) (idx : Nat) : Bool × Nat :=
  if h : idx = 0 then (false, 0)
  else
    match dirGet bmp dense idx with
    | some v => (true, v)
    | none => ancestorWalk bmp dense (idx / 2)
termination_by idx
decreasing_by exact Nat.div_lt_self (Nat.pos_of_ne_zero h) one_lt_two

/-- Modelled from the spec: `match_byte(byte)` of a Stride Node (spec 4.3):
the ancestor walk over the node's value directory starting at
`index(byte, 8)`. -/
def matchByte (n : StrideNode) (o : Nat) : Bool × Nat :=
  ancestorWalk n.pb n.pd (index o 8)

/-- Modelled from the spec: the lookup loop (spec 4.5), in state-passing form
mirroring the C signature (the callee receives the trie and hands it back):
at every visited node take the node's deepest stored match as the new
candidate, then continue into the child for the current byte if present.
Each stack frame returns the subtree it traversed, reattached at the parent,
so that the spec's no-mutation guarantee is a provable statement. -/
def lookupWalkSt (n : StrideNode) (bytes : List Nat) (cand : Bool × Nat) :
    (Bool × Nat) × StrideNode :=
  match bytes with
  | [] => (cand, n)
  | b :: rest =>
    let m := matchByte n b
    let cand2 := if m.1 then m else cand
    match childFor n b with
    | none => (cand2, n)
    | some child =>
      let r := lookupWalkSt child rest cand2
      (r.1, setChild n b r.2)

/-- Modelled from the spec: the pure result of the lookup loop (spec 4.5),
the value component of `lookupWalkSt`. -/
def lookupWalk (n : StrideNode) (bytes : List Nat) (cand : Bool × Nat) : Bool × Nat :=
  match bytes with
  | [] => cand
  | b :: rest =>
    let m := matchByte n b
    let cand2 := if m.1 then m else cand
    match childFor n b with
    | none => cand2
    | some child => lookupWalk child rest cand2

/-- Modelled from the spec: the table (spec 3): two independent root stride
nodes, one per address family. -/
structure BartTable : Type where
  root4 : StrideNode
  root6 : StrideNode

/-- Modelled from the spec: insertion status (spec 6 and 7): the C `int`
status distinguishes success from invalid-argument. -/
inductive BartStatus : Type where
  | ok : BartStatus
  | invalidArg : BartStatus
deriving DecidableEq

/-- Modelled from the spec: `create()` (spec 6): an empty table with two
empty roots. -/
def bart_create : BartTable := ⟨emptyNode, emptyNode⟩

/-- Modelled from the spec: the byte decomposition of an IPv4 address given
as a 32-bit value (spec 4.4 step 2; network byte order, most significant
byte first). -/
def ipv4Bytes (ip : Nat) : List Nat :=
  [ip >>> 24 % 256, ip >>> 16 % 256, ip >>> 8 % 256, ip % 256]

/-- Modelled from the spec: steps 2-5 of insert (spec 4.4) on one root:
`full_bytes = plen / 8`, `remainder_bits = plen % 8`; a positive remainder is
stored after descending `full_bytes` steps; a zero remainder is stored one
level shallower with `bits = 8` (or at the root with `bits = 0` for the
zero-length default route, the byte argument being unused then). -/
def bart_insert_core (root : StrideNode) (bytes : List Nat) (plen v : Nat) : StrideNode :=
  let fb := plen / 8
  let rem := plen % 8
  if 0 < rem then insertNode root (bytes.take fb) rem (bytes.getD fb 0) v
  else if fb = 0 then insertNode root [] 0 0 v
  else insertNode root (bytes.take (fb - 1)) 8 (bytes.getD (fb - 1) 0) v

/-- Modelled from the spec: `bart_insert4` (header line 19, spec 4.4):
reject with invalid-argument when `prefix_len > 32`, leaving the table
unchanged, otherwise insert into the IPv4 root. -/
def bart_insert4 (t : BartTable) (ip plen v : Nat) : BartStatus × BartTable :=
  if 32 < plen then (.invalidArg, t)
  else (.ok, { t with root4 := bart_insert_core t.root4 (ipv4Bytes ip) plen v })

/-- Modelled from the spec: `bart_insert6` (header line 21, spec 4.4):
reject with invalid-argument when `prefix_len > 128`, leaving the table
unchanged, otherwise insert into the IPv6 root; the address is the 16-byte
buffer. -/
def bart_insert6 (t : BartTable) (addr : List Nat) (plen v : Nat) : BartStatus × BartTable :=
  if 128 < plen then (.invalidArg, t)
  else (.ok, { t with root6 := bart_insert_core t.root6 addr plen v })

/-- Modelled from the spec: `bart_lookup4` (header line 25, spec 4.5):
walks the four IPv4 bytes from the IPv4 root; returns the `(found, value)`
pair (the candidate starts as `(false, 0)`, so a miss reports found = false
with value 0) together with the table state after the call. -/
def bart_lookup4 (t : BartTable) (ip : Nat) : (Bool × Nat) × BartTable :=
  let r := lookupWalkSt t.root4 (ipv4Bytes ip) (false, 0)
  (r.1, { t with root4 := r.2 })

/-- Modelled from the spec: `bart_lookup6` (header line 26, spec 4.5):
walks the sixteen address bytes from the IPv6 root. -/
def bart_lookup6 (t : BartTable) (addr : List Nat) : (Bool × Nat) × BartTable :=
  let r := lookupWalkSt t.root6 addr (false, 0)
  (r.1, { t with root6 := r.2 })

/-- Depth of the node receiving a prefix of length `plen` (spec 4.4 steps
3-5): `(plen - 1) / 8` full-byte descents, or none for the default route. -/
def insDepth (plen : Nat) : Nat := if plen = 0 then 0 else (plen - 1) / 8

/-- Significant-bit count stored for a prefix of length `plen` (spec 4.4):
the remainder bits, with an exact multiple of eight stored as `bits = 8`. -/
def insBits (plen : Nat) : Nat := if plen = 0 then 0 else plen - 8 * insDepth plen

/-! ### Arithmetic of the Complete-Binary-Tree index -/

theorem index_eq (o b : Nat) : index o b = 2 ^ b + o / 2 ^ (8 - b) := by
  simp [index, Nat.shiftLeft_eq, Nat.shiftRight_eq_div_pow]

theorem index_ge (o b : Nat) : 2 ^ b ≤ index o b := by
  rw [index_eq]; exact Nat.le_add_right _ _

theorem index_pos (o b : Nat) : 0 < index o b :=
  lt_of_lt_of_le (Nat.pos_pow_of_pos b (by omega)) (index_ge o b)

theorem index_lt (o b : Nat) (ho : o < 256) (hb : b ≤ 8) : index o b < 2 ^ (b + 1) := by
  rw [index_eq, pow_succ]
  have h : o / 2 ^ (8 - b) < 2 ^ b := by
    rw [Nat.div_lt_iff_lt_mul (Nat.pos_pow_of_pos _ (by omega)), ← pow_add]
    have : b + (8 - b) = 8 := by omega
    rw [this]; exact ho
  omega

theorem index_zero (o : Nat) (ho : o < 256) : index o 0 = 1 := by
  rw [index_eq]
  norm_num
  exact Nat.div_eq_of_lt ho

theorem index_b_inj (o1 o2 b1 b2 : Nat) (h1 : o1 < 256) (h2 : o2 < 256)
    (hb1 : b1 ≤ 8) (hb2 : b2 ≤ 8) (h : index o1 b1 = index o2 b2) : b1 = b2 := by
  by_contra hne
  rcases Nat.lt_or_ge b1 b2 with hlt | hge
  · have ha : index o1 b1 < 2 ^ (b1 + 1) := index_lt o1 b1 h1 hb1
    have hc : 2 ^ (b1 + 1) ≤ 2 ^ b2 := Nat.pow_le_pow_right (by omega) (by omega)
    have := index_ge o2 b2
    omega
  · have hgt : b2 < b1 := by omega
    have ha : index o2 b2 < 2 ^ (b2 + 1) := index_lt o2 b2 h2 hb2
    have hc : 2 ^ (b2 + 1) ≤ 2 ^ b1 := Nat.pow_le_pow_right (by omega) (by omega)
    have := index_ge o1 b1
    omega

theorem index_div2 (o b : Nat) (hb1 : 1 ≤ b) (hb : b ≤ 8) :
    index o b / 2 = index o (b - 1) := by
  rw [index_eq, index_eq]
  have hpow : 2 ^ b = 2 ^ (b - 1) * 2 := by
    rw [← pow_succ]; congr 1; omega
  rw [hpow, Nat.add_comm, Nat.add_mul_div_right _ _ (by omega : (0:Nat) < 2),
    Nat.div_div_eq_div_mul, ← pow_succ]
  have : 8 - b + 1 = 8 - (b - 1) := by omega
  rw [this, Nat.add_comm]

theorem index_halve_iter (o b k : Nat) (hk : k ≤ b) (hb : b ≤ 8) :
    (fun i => i / 2)^[k] (index o b) = index o (b - k) := by
  induction k generalizing b with
  | zero => simp
  | succ m ih =>
    rw [Function.iterate_succ_apply, index_div2 o b (by omega) hb,
      ih (b - 1) (by omega) (by omega)]
    congr 1; omega

theorem index_agree (o1 o2 b : Nat) (h : o1 >>> (8 - b) = o2 >>> (8 - b)) :
    index o1 b = index o2 b := by
  simp [index, h]

/-! ### Lemmas about the Sparse Indexed Directory -/

/-- The directory invariant of spec 3: the dense array holds exactly one
entry per set bitmap bit. -/
def DirInv (bm : List Bool) (dense : List α) : Prop :=
  dense.length = bm.countP id

theorem dirHas_iff (bm : List Bool) (i : Nat) :
    dirHas bm i = true ↔ bm[i]? = some true := by
  cases h : bm[i]? with
  | none => simp [dirHas, h]
  | some b => cases b <;> simp [dirHas, h]

theorem dirHas_lt (bm : List Bool) (i : Nat) (h : dirHas bm i = true) : i < bm.length := by
  have := (dirHas_iff bm i).1 h
  exact (List.getElem?_eq_some.1 this).1

theorem dirRank_le_countP (bm : List Bool) (i : Nat) : dirRank bm i ≤ bm.countP id :=
  List.Sublist.countP_le _ (List.take_sublist i bm)

theorem dirRank_lt_countP (bm : List Bool) (i : Nat) (h : dirHas bm i = true) :
    dirRank bm i < bm.countP id := by
  have hi : i < bm.length := dirHas_lt bm i h
  have hsome := (dirHas_iff bm i).1 h
  have hgi : bm[i] = true := by
    have := List.getElem?_eq_getElem hi
    rw [this] at hsome
    exact Option.some_injective _ hsome
  conv_rhs => rw [← List.take_append_drop i bm]
  rw [List.countP_append, List.drop_eq_getElem_cons hi, List.countP_cons, hgi]
  simp [dirRank]

theorem dirRank_mono (bm : List Bool) (i j : Nat) (h : i ≤ j) :
    dirRank bm i ≤ dirRank bm j := by
  have heq : bm.take i = (bm.take j).take i := by
    rw [List.take_take]; congr 1; omega
  rw [dirRank, heq]
  exact List.Sublist.countP_le _ (List.take_sublist i (bm.take j))

theorem dirRank_lt_of_has_lt (bm : List Bool) (i j : Nat) (hj : dirHas bm j = true)
    (hij : j < i) : dirRank bm j < dirRank bm i := by
  have hjl : j < bm.length := dirHas_lt bm j hj
  have hsome := (dirHas_iff bm j).1 hj
  have hgj : bm[j] = true := by
    have := List.getElem?_eq_getElem hjl
    rw [this] at hsome
    exact Option.some_injective _ hsome
  have hdec : bm.take i = bm.take j ++ (bm.drop j).take (i - j) := by
    conv_lhs => rw [show i = j + (i - j) from by omega, List.take_add]
  rw [dirRank, dirRank, hdec, List.countP_append]
  rw [List.drop_eq_getElem_cons hjl, hgj]
  have hsucc : (true :: bm.drop (j + 1)).take (i - j) =
      true :: (bm.drop (j + 1)).take (i - j - 1) := by
    conv_lhs => rw [show i - j = (i - j - 1) + 1 from by omega, List.take_succ_cons]
  rw [hsucc, List.countP_cons]
  simp

theorem dirRank_set_le (bm : List Bool) (i j : Nat) (a : Bool) (h : j ≤ i) :
    dirRank (bm.set i a) j = dirRank bm j := by
  rw [dirRank, List.set_take, List.set_eq_of_length_le, dirRank]
  calc (bm.take j).length ≤ j := by simp [List.length_take]
  _ ≤ i := h

theorem dirRank_set_gt (bm : List Bool) (i j : Nat) (hij : i < j)
    (hi : bm[i]? = some false) : dirRank (bm.set i true) j = dirRank bm j + 1 := by
  rw [dirRank, List.set_take, dirRank]
  have hit : (bm.take j)[i]? = some false := by
    rw [List.getElem?_take]; simp [hij, hi]
  have hil : i < (bm.take j).length := (List.getElem?_eq_some.1 hit).1
  have hgv : (bm.take j)[i] = false := by
    have := List.getElem?_eq_getElem hil
    rw [this] at hit
    exact Option.some_injective _ hit
  have hset : (bm.take j).set i true =
      (bm.take j).take i ++ true :: (bm.take j).drop (i + 1) := by
    rw [List.set_eq_take_append_cons_drop, if_pos hil]
  have hdec : bm.take j = (bm.take j).take i ++ false :: (bm.take j).drop (i + 1) := by
    conv_lhs => rw [← List.take_append_drop i (bm.take j),
      List.drop_eq_getElem_cons hil, hgv]
  rw [hset]
  conv_rhs => rw [hdec]
  simp [List.countP_append, List.countP_cons]
  omega

theorem countP_set_true (bm : List Bool) (i : Nat) (hi : bm[i]? = some false) :
    (bm.set i true).countP id = bm.countP id + 1 := by
  have hil : i < bm.length := (List.getElem?_eq_some.1 hi).1
  have hgv : bm[i] = false := by
    have := List.getElem?_eq_getElem hil
    rw [this] at hi
    exact Option.some_injective _ hi
  have hset : bm.set i true = bm.take i ++ true :: bm.drop (i + 1) := by
    rw [List.set_eq_take_append_cons_drop, if_pos hil]
  have hdec : bm = bm.take i ++ false :: bm.drop (i + 1) := by
    conv_lhs => rw [← List.take_append_drop i bm, List.drop_eq_getElem_cons hil, hgv]
  rw [hset]
  conv_rhs => rw [hdec]
  simp [List.countP_append, List.countP_cons]
  omega

/-! ### The directory behaves as a finite map -/

theorem insertAt_length (l : List α) (n : Nat) (v : α) (h : n ≤ l.length) :
    (insertAt l n v).length = l.length + 1 := by
  simp [insertAt, List.length_take, List.length_drop]
  omega

theorem insertAt_getElem_self (l : List α) (n : Nat) (v : α) (h : n ≤ l.length) :
    (insertAt l n v)[n]? = some v := by
  have hlen : (l.take n).length = n := List.length_take_of_le h
  rw [insertAt, List.getElem?_append_right (le_of_eq hlen)]
  simp [hlen]

theorem insertAt_getElem_lt (l : List α) (n m : Nat) (v : α) (h : m < n)
    (hn : n ≤ l.length) : (insertAt l n v)[m]? = l[m]? := by
  have hlen : (l.take n).length = n := List.length_take_of_le hn
  rw [insertAt, List.getElem?_append_left (by omega)]
  simp [List.getElem?_take, h]

theorem insertAt_getElem_ge (l : List α) (n m : Nat) (v : α) (hnm : n ≤ m)
    (h : n ≤ l.length) : (insertAt l n v)[m + 1]? = l[m]? := by
  have hlen : (l.take n).length = n := List.length_take_of_le h
  rw [insertAt, List.getElem?_append_right (by omega), hlen]
  have hidx : m + 1 - n = (m - n) + 1 := by omega
  rw [hidx]
  simp [List.getElem?_drop]
  congr 1
  omega

theorem insertAt_set_self (l : List α) (n : Nat) (v w : α) (h : n ≤ l.length) :
    (insertAt l n v).set n w = insertAt l n w := by
  have hlen : (l.take n).length = n := List.length_take_of_le h
  have hl : n < (insertAt l n v).length := by rw [insertAt_length l n v h]; omega
  rw [List.set_eq_take_append_cons_drop, if_pos hl]
  have htake : (insertAt l n v).take n = l.take n := by
    rw [insertAt, List.take_append_eq_append_take, hlen]
    simp [List.take_take]
  have hdrop : (insertAt l n v).drop (n + 1) = l.drop n := by
    rw [insertAt]
    have : n + 1 = (l.take n).length + 1 := by omega
    rw [this, List.drop_append, List.drop_succ_cons, List.drop_zero]
  rw [htake, hdrop, insertAt]

theorem dirGet_dirSet_self (bm : List Bool) (dense : List α) (i : Nat) (v : α)
    (inv : DirInv bm dense) (hi : i < bm.length) :
    dirGet (dirSet bm dense i v).1 (dirSet bm dense i v).2 i = some v := by
  by_cases h : dirHas bm i
  · have hr : dirRank bm i < dense.length := by
      rw [inv]; exact dirRank_lt_countP bm i h
    simp only [dirSet, if_pos h, dirGet]
    simp [List.getElem?_set_self, hr]
  · simp only [dirSet, if_neg h, dirGet]
    have hhas : dirHas (bm.set i true) i = true := by
      rw [dirHas_iff]
      simp [List.getElem?_set_self, hi]
    rw [if_pos hhas, dirRank_set_le bm i i true (le_refl i)]
    exact insertAt_getElem_self dense (dirRank bm i) v (by rw [inv]; exact dirRank_le_countP bm i)

theorem dirGet_dirSet_ne (bm : List Bool) (dense : List α) (i j : Nat) (v : α)
    (inv : DirInv bm dense) (hi : i < bm.length) (hne : j ≠ i) :
    dirGet (dirSet bm dense i v).1 (dirSet bm dense i v).2 j = dirGet bm dense j := by
  by_cases h : dirHas bm i
  · simp only [dirSet, if_pos h, dirGet]
    by_cases hj : dirHas bm j
    · rw [if_pos hj, if_pos hj]
      have hrne : dirRank bm j ≠ dirRank bm i := by
        rcases Nat.lt_or_ge j i with hlt | hge
        · exact Nat.ne_of_lt (dirRank_lt_of_has_lt bm i j hj hlt)
        · have : i < j := by omega
          exact (Nat.ne_of_lt (dirRank_lt_of_has_lt bm j i h this)).symm
      rw [List.getElem?_set_ne (by omega)]
    · rw [if_neg hj, if_neg hj]
  · simp only [dirSet, if_neg h, dirGet]
    have hbmi : bm[i]? = some false := by
      rw [List.getElem?_eq_getElem hi]
      have : bm[i] ≠ true := by
        intro hc
        exact h ((dirHas_iff bm i).2 (by rw [List.getElem?_eq_getElem hi, hc]))
      simp at this
      rw [this]
    have hhasj : dirHas (bm.set i true) j = dirHas bm j := by
      simp [dirHas, List.getElem?_set_ne (Ne.symm hne)]
    rw [hhasj]
    by_cases hj : dirHas bm j
    · rw [if_pos hj, if_pos hj]
      rcases Nat.lt_or_ge j i with hlt | hge
      · rw [dirRank_set_le bm i j true (by omega)]
        exact insertAt_getElem_lt dense (dirRank bm i) (dirRank bm j) v
          (dirRank_lt_of_has_lt bm i j hj hlt) (by rw [inv]; exact dirRank_le_countP bm i)
      · have hij : i < j := by omega
        rw [dirRank_set_gt bm i j hij hbmi]
        exact insertAt_getElem_ge dense (dirRank bm i) (dirRank bm j) v
          (dirRank_mono bm i j (by omega)) (by rw [inv]; exact dirRank_le_countP bm i)
    · rw [if_neg hj, if_neg hj]

theorem DirInv_dirSet (bm : List Bool) (dense : List α) (i : Nat) (v : α)
    (inv : DirInv bm dense) (hi : i < bm.length) :
    DirInv (dirSet bm dense i v).1 (dirSet bm dense i v).2 := by
  by_cases h : dirHas bm i
  · simp only [dirSet, if_pos h, DirInv, List.length_set]
    exact inv
  · simp only [dirSet, if_neg h, DirInv]
    have hbmi : bm[i]? = some false := by
      rw [List.getElem?_eq_getElem hi]
      have : bm[i] ≠ true := by
        intro hc
        exact h ((dirHas_iff bm i).2 (by rw [List.getElem?_eq_getElem hi, hc]))
      simp at this
      rw [this]
    rw [insertAt_length dense _ v (by rw [inv]; exact dirRank_le_countP bm i),
      countP_set_true bm i hbmi]
    rw [show dense.length = bm.countP id from inv]

theorem dirSet_fst_length (bm : List Bool) (dense : List α) (i : Nat) (v : α) :
    (dirSet bm dense i v).1.length = bm.length := by
  by_cases h : dirHas bm i
  · simp [dirSet, if_pos h]
  · simp [dirSet, if_neg h]

theorem dirSet_dirSet (bm : List Bool) (dense : List α) (i : Nat) (v1 v2 : α)
    (inv : DirInv bm dense) (hi : i < bm.length) :
    dirSet (dirSet bm dense i v1).1 (dirSet bm dense i v1).2 i v2 =
      dirSet bm dense i v2 := by
  by_cases h : dirHas bm i
  · simp only [dirSet, if_pos h]
    simp [List.set_set]
  · simp only [dirSet, if_neg h]
    have hhas : dirHas (bm.set i true) i = true := by
      rw [dirHas_iff]
      simp [List.getElem?_set_self, hi]
    rw [if_pos hhas, dirRank_set_le bm i i true (le_refl i),
      insertAt_set_self dense (dirRank bm i) v1 v2 (by rw [inv]; exact dirRank_le_countP bm i)]

/-! ### Stride-node level: invariant and directory characterizations -/

/-- The structural invariant of spec 3 for a stride node and, recursively,
all nodes it owns: bitmap universes 512 and 256, and one dense entry per set
bit in each directory. -/
def NodeInv : StrideNode → Prop
  | .mk pbm pdn cbm cdn =>
      pbm.length = 512 ∧ DirInv pbm pdn ∧ cbm.length = 256 ∧ DirInv cbm cdn ∧
      ∀ c ∈ cdn, NodeInv c

theorem nodeInv_mk (pbm : List Bool) (pdn : List Nat) (cbm : List Bool)
    (cdn : List StrideNode) :
    NodeInv (.mk pbm pdn cbm cdn) ↔
      pbm.length = 512 ∧ DirInv pbm pdn ∧ cbm.length = 256 ∧ DirInv cbm cdn ∧
      ∀ c ∈ cdn, NodeInv c := by
  rw [NodeInv]

theorem countP_id_replicate_false (n : Nat) : (List.replicate n false).countP id = 0 := by
  induction n with
  | zero => simp
  | succ m ih => simp [List.replicate_succ, List.countP_cons, ih]

theorem emptyNode_inv : NodeInv emptyNode := by
  rw [emptyNode, nodeInv_mk]
  refine ⟨List.length_replicate 512 false, ?_, List.length_replicate 256 false, ?_, by simp⟩
  · rw [DirInv, countP_id_replicate_false]; rfl
  · rw [DirInv, countP_id_replicate_false]; rfl

/-- Shorthand for reads of a node's value directory. -/
def pGet (n : StrideNode) (j : Nat) : Option Nat := dirGet n.pb n.pd j

theorem storePfx_cb (n : StrideNode) (bits sb v : Nat) : (storePfx n bits sb v).cb = n.cb := by
  cases n; rfl

theorem storePfx_cd (n : StrideNode) (bits sb v : Nat) : (storePfx n bits sb v).cd = n.cd := by
  cases n; rfl

theorem setChild_pb (n : StrideNode) (b : Nat) (c : StrideNode) : (setChild n b c).pb = n.pb := by
  cases n; rfl

theorem setChild_pd (n : StrideNode) (b : Nat) (c : StrideNode) : (setChild n b c).pd = n.pd := by
  cases n; rfl

theorem childFor_storePfx (n : StrideNode) (bits sb v b : Nat) :
    childFor (storePfx n bits sb v) b = childFor n b := by
  rw [childFor, childFor, storePfx_cb, storePfx_cd]

theorem pGet_setChild (n : StrideNode) (b : Nat) (c : StrideNode) (j : Nat) :
    pGet (setChild n b c) j = pGet n j := by
  rw [pGet, pGet, setChild_pb, setChild_pd]

theorem matchByte_setChild (n : StrideNode) (b : Nat) (c : StrideNode) (o : Nat) :
    matchByte (setChild n b c) o = matchByte n o := by
  rw [matchByte, matchByte, setChild_pb, setChild_pd]

theorem pGet_storePfx_self (n : StrideNode) (bits sb v : Nat) (h : NodeInv n)
    (hidx : index sb bits < 512) :
    pGet (storePfx n bits sb v) (index sb bits) = some v := by
  cases n with
  | mk pbm pdn cbm cdn =>
    rw [nodeInv_mk] at h
    exact dirGet_dirSet_self pbm pdn (index sb bits) v h.2.1 (by rw [h.1]; exact hidx)

theorem pGet_storePfx_ne (n : StrideNode) (bits sb v j : Nat) (h : NodeInv n)
    (hidx : index sb bits < 512) (hne : j ≠ index sb bits) :
    pGet (storePfx n bits sb v) j = pGet n j := by
  cases n with
  | mk pbm pdn cbm cdn =>
    rw [nodeInv_mk] at h
    exact dirGet_dirSet_ne pbm pdn (index sb bits) j v h.2.1 (by rw [h.1]; exact hidx) hne

theorem childFor_setChild_self (n : StrideNode) (b : Nat) (c : StrideNode) (h : NodeInv n)
    (hb : b < 256) : childFor (setChild n b c) b = some c := by
  cases n with
  | mk pbm pdn cbm cdn =>
    rw [nodeInv_mk] at h
    exact dirGet_dirSet_self cbm cdn b c h.2.2.2.1 (by rw [h.2.2.1]; exact hb)

theorem childFor_setChild_ne (n : StrideNode) (b : Nat) (c : StrideNode) (b2 : Nat)
    (h : NodeInv n) (hb : b < 256) (hne : b2 ≠ b) :
    childFor (setChild n b c) b2 = childFor n b2 := by
  cases n with
  | mk pbm pdn cbm cdn =>
    rw [nodeInv_mk] at h
    exact dirGet_dirSet_ne cbm cdn b b2 c h.2.2.2.1 (by rw [h.2.2.1]; exact hb) hne

theorem dirHas_replicate_false (u j : Nat) : dirHas (List.replicate u false) j = false := by
  rw [dirHas, List.getElem?_replicate]
  by_cases h : j < u <;> simp [h]

theorem dirGet_replicate_false (u : Nat) (dense : List α) (j : Nat) :
    dirGet (List.replicate u false) dense j = none := by
  rw [dirGet, dirHas_replicate_false]
  rfl

theorem pGet_emptyNode (j : Nat) : pGet emptyNode j = none := by
  rw [pGet, emptyNode]
  simp only [StrideNode.pb, StrideNode.pd]
  exact dirGet_replicate_false 512 [] j

theorem childFor_emptyNode (b : Nat) : childFor emptyNode b = none := by
  rw [childFor, emptyNode]
  simp only [StrideNode.cb, StrideNode.cd]
  exact dirGet_replicate_false 256 [] b

theorem dirGet_eq_some_elim (bm : List Bool) (dense : List α) (i : Nat) (a : α)
    (h : dirGet bm dense i = some a) :
    dirHas bm i = true ∧ dense[dirRank bm i]? = some a := by
  by_cases hh : dirHas bm i
  · rw [dirGet, if_pos hh] at h
    exact ⟨hh, h⟩
  · rw [dirGet, if_neg hh] at h
    exact absurd h (by simp)

theorem mem_of_childFor (n : StrideNode) (b : Nat) (c : StrideNode)
    (h : childFor n b = some c) : c ∈ n.cd := by
  have := (dirGet_eq_some_elim n.cb n.cd b c h).2
  have h2 := List.getElem?_eq_some.1 this
  obtain ⟨hlt, rfl⟩ := h2
  exact List.getElem_mem hlt

theorem NodeInv_sub (n : StrideNode) (h : NodeInv n) (c : StrideNode) (hc : c ∈ n.cd) :
    NodeInv c := by
  cases n with
  | mk pbm pdn cbm cdn =>
    rw [nodeInv_mk] at h
    exact h.2.2.2.2 c hc

theorem NodeInv_childOr (n : StrideNode) (b : Nat) (h : NodeInv n) :
    NodeInv (childOr n b) := by
  rw [childOr]
  cases hc : childFor n b with
  | none => exact emptyNode_inv
  | some c => exact NodeInv_sub n h c (mem_of_childFor n b c hc)

theorem NodeInv_storePfx (n : StrideNode) (bits sb v : Nat) (h : NodeInv n)
    (hidx : index sb bits < 512) : NodeInv (storePfx n bits sb v) := by
  cases n with
  | mk pbm pdn cbm cdn =>
    rw [nodeInv_mk] at h
    rw [storePfx]
    simp only [StrideNode.pb, StrideNode.pd, StrideNode.cb, StrideNode.cd]
    rw [nodeInv_mk]
    refine ⟨?_, ?_, h.2.2.1, h.2.2.2.1, h.2.2.2.2⟩
    · rw [dirSet_fst_length, h.1]
    · exact DirInv_dirSet pbm pdn _ v h.2.1 (by rw [h.1]; exact hidx)

theorem mem_of_mem_dirSet (bm : List Bool) (dense : List α) (i : Nat) (v a : α)
    (h : a ∈ (dirSet bm dense i v).2) : a ∈ dense ∨ a = v := by
  by_cases hh : dirHas bm i
  · rw [dirSet] at h
    rw [if_pos hh] at h
    exact (List.mem_or_eq_of_mem_set h).imp_right id
  · rw [dirSet] at h
    rw [if_neg hh] at h
    rw [insertAt] at h
    rcases List.mem_append.1 h with h1 | h2
    · exact Or.inl (List.mem_of_mem_take h1)
    · rcases List.mem_cons.1 h2 with h3 | h4
      · exact Or.inr h3
      · exact Or.inl (List.mem_of_mem_drop h4)

theorem NodeInv_setChild (n : StrideNode) (b : Nat) (c : StrideNode) (h : NodeInv n)
    (hb : b < 256) (hc : NodeInv c) : NodeInv (setChild n b c) := by
  cases n with
  | mk pbm pdn cbm cdn =>
    rw [nodeInv_mk] at h
    rw [setChild]
    simp only [StrideNode.pb, StrideNode.pd, StrideNode.cb, StrideNode.cd]
    rw [nodeInv_mk]
    refine ⟨h.1, h.2.1, ?_, ?_, ?_⟩
    · rw [dirSet_fst_length, h.2.2.1]
    · exact DirInv_dirSet cbm cdn b c h.2.2.2.1 (by rw [h.2.2.1]; exact hb)
    · intro c2 hc2
      rcases mem_of_mem_dirSet cbm cdn b c c2 hc2 with hmem | heq
      · exact h.2.2.2.2 c2 hmem
      · rw [heq]; exact hc

theorem NodeInv_insertNode (path : List Nat) (n : StrideNode) (bits sb v : Nat)
    (h : NodeInv n) (hpath : ∀ x ∈ path, x < 256) (hidx : index sb bits < 512) :
    NodeInv (insertNode n path bits sb v) := by
  induction path generalizing n with
  | nil => exact NodeInv_storePfx n bits sb v h hidx
  | cons b rest ih =>
    rw [insertNode]
    refine NodeInv_setChild n b _ h (hpath b (by simp)) ?_
    exact ih (childOr n b) (NodeInv_childOr n b h) (fun x hx => hpath x (by simp [hx]))

theorem set_eq_self_of_getElem? (l : List α) (n : Nat) (a : α) (h : l[n]? = some a) :
    l.set n a = l := by
  induction l generalizing n with
  | nil => simp at h
  | cons x xs ih =>
    cases n with
    | zero =>
      simp at h
      simp [h]
    | succ m =>
      simp at h
      simp [ih m h]

theorem setChild_restore (n : StrideNode) (b : Nat) (c : StrideNode)
    (h : childFor n b = some c) : setChild n b c = n := by
  have he := dirGet_eq_some_elim n.cb n.cd b c h
  cases n with
  | mk pbm pdn cbm cdn =>
    rw [setChild]
    simp only [StrideNode.pb, StrideNode.pd, StrideNode.cb, StrideNode.cd] at he ⊢
    rw [dirSet, if_pos he.1, set_eq_self_of_getElem? cdn _ c he.2]

/-! ### The ancestor walk -/

theorem ancestorWalk_zero (bmp : List Bool) (dense : List Nat) :
    ancestorWalk bmp dense 0 = (false, 0) := by
  rw [ancestorWalk]
  simp

theorem ancestorWalk_hit (bmp : List Bool) (dense : List Nat) (idx : Nat) (v : Nat)
    (hne : idx ≠ 0) (h : dirGet bmp dense idx = some v) :
    ancestorWalk bmp dense idx = (true, v) := by
  rw [ancestorWalk, dif_neg hne, h]

theorem ancestorWalk_step (bmp : List Bool) (dense : List Nat) (idx : Nat)
    (hne : idx ≠ 0) (h : dirGet bmp dense idx = none) :
    ancestorWalk bmp dense idx = ancestorWalk bmp dense (idx / 2) := by
  rw [ancestorWalk, dif_neg hne, h]

theorem walk_hits (bmp : List Bool) (dense : List Nat) (a v : Nat) (ha : a < 256) :
    ∀ d k bits, k ≤ 8 → bits ≤ k → k - bits = d →
    dirGet bmp dense (index a bits) = some v →
    (∀ b, bits < b → b ≤ k → dirGet bmp dense (index a b) = none) →
    ancestorWalk bmp dense (index a k) = (true, v) := by
  intro d
  induction d with
  | zero =>
    intro k bits hk hbk hd hhit habove
    have hkb : k = bits := by omega
    rw [hkb]
    exact ancestorWalk_hit bmp dense _ v (by have := index_pos a bits; omega) hhit
  | succ m ih =>
    intro k bits hk hbk hd hhit habove
    have hkb : bits < k := by omega
    rw [ancestorWalk_step bmp dense _ (by have := index_pos a k; omega)
      (habove k hkb (le_refl k))]
    rw [index_div2 a k (by omega) hk]
    exact ih (k - 1) bits (by omega) (by omega) (by omega) hhit
      (fun b hb1 hb2 => habove b hb1 (by omega))

theorem walk_none (bmp : List Bool) (dense : List Nat) (a : Nat) (ha : a < 256) :
    ∀ k, k ≤ 8 → (∀ b, b ≤ k → dirGet bmp dense (index a b) = none) →
    ancestorWalk bmp dense (index a k) = (false, 0) := by
  intro k
  induction k with
  | zero =>
    intro hk hall
    rw [ancestorWalk_step bmp dense _ (by have := index_pos a 0; omega)
      (hall 0 (le_refl 0))]
    rw [index_zero a ha]
    exact ancestorWalk_zero bmp dense
  | succ m ih =>
    intro hk hall
    rw [ancestorWalk_step bmp dense _ (by have := index_pos a (m + 1); omega)
      (hall (m + 1) (le_refl _))]
    rw [index_div2 a (m + 1) (by omega) hk]
    simp only [Nat.add_sub_cancel]
    exact ih (by omega) (fun b hb => hall b (by omega))

/-! ### Lookup: state threading and the not-found analysis -/

theorem lookupWalkSt_fst (bytes : List Nat) (n : StrideNode) (cand : Bool × Nat) :
    (lookupWalkSt n bytes cand).1 = lookupWalk n bytes cand := by
  induction bytes generalizing n cand with
  | nil => rfl
  | cons b rest ih =>
    simp only [lookupWalkSt, lookupWalk]
    cases hc : childFor n b with
    | none => simp [hc]
    | some child => simp [hc, ih]

theorem lookupWalkSt_snd (bytes : List Nat) (n : StrideNode) (cand : Bool × Nat) :
    (lookupWalkSt n bytes cand).2 = n := by
  induction bytes generalizing n cand with
  | nil => rfl
  | cons b rest ih =>
    simp only [lookupWalkSt]
    cases hc : childFor n b with
    | none => simp [hc]
    | some child =>
      simp only [hc]
      rw [ih]
      exact setChild_restore n b child hc

/-- Decidable form of: no stored value entry of significant-bit count at
least `minb` in node `n` covers byte `a` (all chain indices of the ancestor
walk for `a` with bit count in `[minb, 8]` are absent). -/
def chainMiss (n : StrideNode) (a minb : Nat) : Bool :=
  (List.range 9).all fun b => decide (b < minb) || (pGet n (index a b)).isNone

/-- Decidable form of: no stored entry anywhere along the walk of `bytes`
from `n` covers the address, except possibly entries of bit count below
`minb` at the first node (used with `minb = 1` to say: nothing more specific
than a default route covers the address). -/
def noCover (n : StrideNode) (bytes : List Nat) (minb : Nat) : Bool :=
  match bytes with
  | [] => true
  | a :: rest =>
    chainMiss n a minb &&
      (match childFor n a with
       | none => true
       | some c => noCover c rest 0)

theorem chainMiss_elim (n : StrideNode) (a minb : Nat) (h : chainMiss n a minb = true) :
    ∀ b, minb ≤ b → b ≤ 8 → pGet n (index a b) = none := by
  intro b hminb hb8
  have hmem : b ∈ List.range 9 := List.mem_range.2 (by omega)
  have := List.all_eq_true.1 h b hmem
  rcases Bool.or_eq_true_iff.1 this with h1 | h2
  · exact absurd (of_decide_eq_true h1) (by omega)
  · exact Option.isNone_iff_eq_none.1 h2

theorem matchByte_of_chainMiss (n : StrideNode) (a : Nat) (ha : a < 256)
    (h : chainMiss n a 0 = true) : matchByte n a = (false, 0) := by
  rw [matchByte]
  exact walk_none n.pb n.pd a ha 8 (le_refl 8)
    (fun b hb => chainMiss_elim n a 0 h b (Nat.zero_le b) hb)

theorem noCover_walk (bytes : List Nat) (n : StrideNode) (cand : Bool × Nat)
    (h : noCover n bytes 0 = true) (ha : ∀ x ∈ bytes, x < 256) :
    lookupWalk n bytes cand = cand := by
  induction bytes generalizing n cand with
  | nil => rfl
  | cons b rest ih =>
    rw [noCover, Bool.and_eq_true] at h
    obtain ⟨hcm, hrest⟩ := h
    have hmb := matchByte_of_chainMiss n b (ha b (by simp)) hcm
    cases hc : childFor n b with
    | none => simp [lookupWalk, hmb, hc]
    | some c =>
      rw [hc] at hrest
      simp only [lookupWalk, hmb, hc]
      simp only [show ((false, (0 : Nat))).1 = false from rfl, Bool.false_eq_true, if_false]
      exact ih c cand hrest (fun x hx => ha x (by simp [hx]))

/-! ### Lookup after insert -/

/-- The address follows insertion path `p` and its next byte agrees with the
stored byte `sb` on the stored significant bits. -/
def Covers (p : List Nat) (bits sb : Nat) (addr : List Nat) : Prop :=
  addr.take p.length = p ∧ p.length < addr.length ∧
    index (addr.getD p.length 0) bits = index sb bits

theorem getD_mem_of_lt (l : List Nat) (d : Nat) (h : d < l.length) : l.getD d 0 ∈ l := by
  rw [List.getD_eq_getElem?_getD, List.getElem?_eq_getElem h]
  exact List.getElem_mem h

theorem Covers_cons (b : Nat) (p : List Nat) (bits sb : Nat) (a : Nat) (rest : List Nat)
    (h : Covers (b :: p) bits sb (a :: rest)) : a = b ∧ Covers p bits sb rest := by
  obtain ⟨h1, h2, h3⟩ := h
  rw [List.length_cons, List.take_succ_cons] at h1
  have hinj := List.cons_eq_cons.1 h1
  have hab : a = b := hinj.1
  have htl : rest.take p.length = p := hinj.2
  refine ⟨hab, htl, ?_, ?_⟩
  · rw [List.length_cons] at h2
    simpa using h2
  · rw [List.length_cons, List.getD_cons_succ] at h3
    exact h3

theorem Covers_byte_lt (p : List Nat) (bits sb : Nat) (addr : List Nat)
    (h : Covers p bits sb addr) (ha : ∀ x ∈ addr, x < 256) :
    addr.getD p.length 0 < 256 :=
  ha _ (getD_mem_of_lt addr p.length h.2.1)

theorem Covers_idx_lt (p : List Nat) (bits sb : Nat) (addr : List Nat)
    (h : Covers p bits sb addr) (hb : bits ≤ 8) (ha : ∀ x ∈ addr, x < 256) :
    index sb bits < 512 := by
  rw [← h.2.2]
  have hlt := index_lt (addr.getD p.length 0) bits (Covers_byte_lt p bits sb addr h ha) hb
  have : 2 ^ (bits + 1) ≤ 2 ^ 9 := Nat.pow_le_pow_right (by omega) (by omega)
  norm_num at this
  omega

theorem index_chain_ne (a b bits : Nat) (ha : a < 256) (hb : b ≤ 8) (hbits : bits ≤ 8)
    (hne : b ≠ bits) : index a b ≠ index a bits := fun hc =>
  hne (index_b_inj a a b bits ha ha hb hbits hc)

theorem childOr_emptyNode (b : Nat) : childOr emptyNode b = emptyNode := by
  rw [childOr, childFor_emptyNode]
  rfl

theorem single_insert_lookup (p : List Nat) (bits sb v : Nat) (addr : List Nat)
    (cand : Bool × Nat) (hb : bits ≤ 8) (hcov : Covers p bits sb addr)
    (ha : ∀ x ∈ addr, x < 256) :
    lookupWalk (insertNode emptyNode p bits sb v) addr cand = (true, v) := by
  induction p generalizing addr cand with
  | nil =>
    cases addr with
    | nil => exact absurd hcov.2.1 (by simp)
    | cons a rest =>
      have ha0 : a < 256 := ha a (by simp)
      have hidx : index sb bits < 512 := Covers_idx_lt [] bits sb _ hcov hb ha
      have hcov3 : index a bits = index sb bits := by
        have := hcov.2.2
        simpa using this
      rw [insertNode]
      have hmb : matchByte (storePfx emptyNode bits sb v) a = (true, v) := by
        rw [matchByte]
        refine walk_hits _ _ a v ha0 (8 - bits) 8 bits (le_refl 8) hb rfl ?_ ?_
        · show pGet (storePfx emptyNode bits sb v) (index a bits) = some v
          rw [hcov3]
          exact pGet_storePfx_self emptyNode bits sb v emptyNode_inv hidx
        · intro b hb1 hb2
          show pGet (storePfx emptyNode bits sb v) (index a b) = none
          rw [pGet_storePfx_ne emptyNode bits sb v _ emptyNode_inv hidx
            (by rw [← hcov3]; exact index_chain_ne a b bits ha0 hb2 hb (by omega))]
          exact pGet_emptyNode _
      simp [lookupWalk, hmb, childFor_storePfx, childFor_emptyNode]
  | cons b p2 ih =>
    cases addr with
    | nil => exact absurd hcov.2.1 (by simp)
    | cons a rest =>
      obtain ⟨hab, hcov2⟩ := Covers_cons b p2 bits sb a rest hcov
      have hb256 : b < 256 := by rw [← hab]; exact ha a (by simp)
      rw [insertNode, childOr_emptyNode]
      have hmb : matchByte (setChild emptyNode b (insertNode emptyNode p2 bits sb v)) a
          = (false, 0) := by
        rw [matchByte, setChild_pb, setChild_pd]
        refine walk_none _ _ a (ha a (by simp)) 8 (le_refl 8) ?_
        intro b2 hb2
        exact pGet_emptyNode (index a b2)
      have hcf : childFor (setChild emptyNode b (insertNode emptyNode p2 bits sb v)) a
          = some (insertNode emptyNode p2 bits sb v) := by
        rw [hab]
        exact childFor_setChild_self emptyNode b _ emptyNode_inv hb256
      simp only [lookupWalk, hmb, hcf]
      simp only [show ((false, (0 : Nat))).1 = false from rfl, Bool.false_eq_true, if_false]
      exact ih rest cand hcov2 (fun x hx => ha x (by simp [hx]))

theorem Covers_path_lt (p : List Nat) (bits sb : Nat) (addr : List Nat)
    (h : Covers p bits sb addr) (ha : ∀ x ∈ addr, x < 256) : ∀ x ∈ p, x < 256 := by
  intro x hx
  rw [← h.1] at hx
  exact ha x (List.mem_of_mem_take hx)

theorem childOr_storePfx_emptyNode (bits sb v b : Nat) :
    childOr (storePfx emptyNode bits sb v) b = emptyNode := by
  rw [childOr, childFor_storePfx, childFor_emptyNode]
  rfl

theorem childOr_setChild_self (n : StrideNode) (b : Nat) (c : StrideNode) (h : NodeInv n)
    (hb : b < 256) : childOr (setChild n b c) b = c := by
  rw [childOr, childFor_setChild_self n b c h hb]
  rfl

theorem two_insert_lookup (p1 : List Nat) (ext : List Nat) (bits1 sb1 v1 bits2 sb2 v2 : Nat)
    (addr : List Nat) (cand : Bool × Nat)
    (hb1 : bits1 ≤ 8) (hb2 : bits2 ≤ 8)
    (hcov1 : Covers p1 bits1 sb1 addr)
    (hcov2 : Covers (p1 ++ ext) bits2 sb2 addr)
    (hext : ext = [] → bits1 < bits2)
    (ha : ∀ x ∈ addr, x < 256) :
    lookupWalk (insertNode (insertNode emptyNode p1 bits1 sb1 v1) (p1 ++ ext) bits2 sb2 v2)
      addr cand = (true, v2) := by
  induction p1 generalizing addr cand with
  | nil =>
    cases addr with
    | nil => exact absurd hcov1.2.1 (by simp)
    | cons a rest =>
      have ha0 : a < 256 := ha a (by simp)
      have hidx1 : index sb1 bits1 < 512 := Covers_idx_lt [] bits1 sb1 _ hcov1 hb1 ha
      have hcov13 : index a bits1 = index sb1 bits1 := by
        have := hcov1.2.2
        simpa using this
      cases ext with
      | nil =>
        have hbb : bits1 < bits2 := hext rfl
        simp only [List.append_nil] at hcov2 ⊢
        have hidx2 : index sb2 bits2 < 512 := Covers_idx_lt [] bits2 sb2 _ hcov2 hb2 ha
        have hcov23 : index a bits2 = index sb2 bits2 := by
          have := hcov2.2.2
          simpa using this
        simp only [insertNode]
        have hinv1 : NodeInv (storePfx emptyNode bits1 sb1 v1) :=
          NodeInv_storePfx emptyNode bits1 sb1 v1 emptyNode_inv hidx1
        have hmb : matchByte (storePfx (storePfx emptyNode bits1 sb1 v1) bits2 sb2 v2) a
            = (true, v2) := by
          rw [matchByte]
          refine walk_hits _ _ a v2 ha0 (8 - bits2) 8 bits2 (le_refl 8) hb2 rfl ?_ ?_
          · show pGet (storePfx (storePfx emptyNode bits1 sb1 v1) bits2 sb2 v2)
              (index a bits2) = some v2
            rw [hcov23]
            exact pGet_storePfx_self _ bits2 sb2 v2 hinv1 hidx2
          · intro b hbg hble
            show pGet (storePfx (storePfx emptyNode bits1 sb1 v1) bits2 sb2 v2)
              (index a b) = none
            rw [pGet_storePfx_ne _ bits2 sb2 v2 _ hinv1 hidx2
              (by rw [← hcov23]; exact index_chain_ne a b bits2 ha0 hble hb2 (by omega))]
            rw [pGet_storePfx_ne _ bits1 sb1 v1 _ emptyNode_inv hidx1
              (by rw [← hcov13]; exact index_chain_ne a b bits1 ha0 hble hb1 (by omega))]
            exact pGet_emptyNode _
        have hcf : childFor (storePfx (storePfx emptyNode bits1 sb1 v1) bits2 sb2 v2) a
            = none := by
          rw [childFor_storePfx, childFor_storePfx, childFor_emptyNode]
        simp [lookupWalk, hmb, hcf]
      | cons be ext2 =>
        simp only [List.nil_append] at hcov2 ⊢
        obtain ⟨habe, hcov2r⟩ := Covers_cons be ext2 bits2 sb2 a rest hcov2
        have hbe256 : be < 256 := by rw [← habe]; exact ha0
        simp only [insertNode, childOr_storePfx_emptyNode]
        have hinv1 : NodeInv (storePfx emptyNode bits1 sb1 v1) :=
          NodeInv_storePfx emptyNode bits1 sb1 v1 emptyNode_inv hidx1
        have hmb : matchByte (setChild (storePfx emptyNode bits1 sb1 v1) be
            (insertNode emptyNode ext2 bits2 sb2 v2)) a = (true, v1) := by
          rw [matchByte_setChild, matchByte]
          refine walk_hits _ _ a v1 ha0 (8 - bits1) 8 bits1 (le_refl 8) hb1 rfl ?_ ?_
          · show pGet (storePfx emptyNode bits1 sb1 v1) (index a bits1) = some v1
            rw [hcov13]
            exact pGet_storePfx_self _ bits1 sb1 v1 emptyNode_inv hidx1
          · intro b hbg hble
            show pGet (storePfx emptyNode bits1 sb1 v1) (index a b) = none
            rw [pGet_storePfx_ne _ bits1 sb1 v1 _ emptyNode_inv hidx1
              (by rw [← hcov13]; exact index_chain_ne a b bits1 ha0 hble hb1 (by omega))]
            exact pGet_emptyNode _
        have hcf : childFor (setChild (storePfx emptyNode bits1 sb1 v1) be
            (insertNode emptyNode ext2 bits2 sb2 v2)) a
            = some (insertNode emptyNode ext2 bits2 sb2 v2) := by
          rw [habe]
          exact childFor_setChild_self _ be _ hinv1 hbe256
        simp only [lookupWalk, hmb, hcf]
        simp only [show ((true, v1)).1 = true from rfl, if_true]
        exact single_insert_lookup ext2 bits2 sb2 v2 rest (true, v1) hb2 hcov2r
          (fun x hx => ha x (by simp [hx]))
  | cons b p1r ih =>
    cases addr with
    | nil => exact absurd hcov1.2.1 (by simp)
    | cons a rest =>
      have ha0 : a < 256 := ha a (by simp)
      obtain ⟨hab, hcov1r⟩ := Covers_cons b p1r bits1 sb1 a rest hcov1
      simp only [List.cons_append] at hcov2 ⊢
      obtain ⟨hab2, hcov2r⟩ := Covers_cons b (p1r ++ ext) bits2 sb2 a rest hcov2
      have hb256 : b < 256 := by rw [← hab]; exact ha0
      have harest : ∀ x ∈ rest, x < 256 := fun x hx => ha x (by simp [hx])
      have hidx1 : index sb1 bits1 < 512 := Covers_idx_lt p1r bits1 sb1 _ hcov1r hb1 harest
      have hinvc1 : NodeInv (insertNode emptyNode p1r bits1 sb1 v1) :=
        NodeInv_insertNode p1r emptyNode bits1 sb1 v1 emptyNode_inv
          (Covers_path_lt p1r bits1 sb1 rest hcov1r harest) hidx1
      have hinvt1 : NodeInv (setChild emptyNode b (insertNode emptyNode p1r bits1 sb1 v1)) :=
        NodeInv_setChild emptyNode b _ emptyNode_inv hb256 hinvc1
      conv_lhs =>
        rw [insertNode, insertNode, childOr_emptyNode,
          childOr_setChild_self emptyNode b _ emptyNode_inv hb256]
      have hmb : matchByte (setChild (setChild emptyNode b (insertNode emptyNode p1r bits1 sb1 v1)) b
          (insertNode (insertNode emptyNode p1r bits1 sb1 v1) (p1r ++ ext) bits2 sb2 v2)) a
          = (false, 0) := by
        rw [matchByte_setChild, matchByte_setChild, matchByte]
        refine walk_none _ _ a ha0 8 (le_refl 8) ?_
        intro b2 hb2le
        exact pGet_emptyNode (index a b2)
      have hcf : childFor (setChild (setChild emptyNode b (insertNode emptyNode p1r bits1 sb1 v1)) b
          (insertNode (insertNode emptyNode p1r bits1 sb1 v1) (p1r ++ ext) bits2 sb2 v2)) a
          = some (insertNode (insertNode emptyNode p1r bits1 sb1 v1) (p1r ++ ext) bits2 sb2 v2) := by
        rw [hab]
        exact childFor_setChild_self _ b _ hinvt1 hb256
      simp only [lookupWalk, hmb, hcf]
      simp only [show ((false, (0 : Nat))).1 = false from rfl, Bool.false_eq_true, if_false]
      exact ih rest cand hcov1r hcov2r harest

/-! ### Overwrite collapse (re-insertion of the same prefix) -/

theorem storePfx_storePfx (n : StrideNode) (bits sb v1 v2 : Nat) (h : NodeInv n)
    (hidx : index sb bits < 512) :
    storePfx (storePfx n bits sb v1) bits sb v2 = storePfx n bits sb v2 := by
  cases n with
  | mk pbm pdn cbm cdn =>
    rw [nodeInv_mk] at h
    simp only [storePfx, StrideNode.pb, StrideNode.pd, StrideNode.cb, StrideNode.cd]
    rw [dirSet_dirSet pbm pdn (index sb bits) v1 v2 h.2.1 (by rw [h.1]; exact hidx)]

theorem setChild_setChild (n : StrideNode) (b : Nat) (c1 c2 : StrideNode) (h : NodeInv n)
    (hb : b < 256) :
    setChild (setChild n b c1) b c2 = setChild n b c2 := by
  cases n with
  | mk pbm pdn cbm cdn =>
    rw [nodeInv_mk] at h
    simp only [setChild, StrideNode.pb, StrideNode.pd, StrideNode.cb, StrideNode.cd]
    rw [dirSet_dirSet cbm cdn b c1 c2 h.2.2.2.1 (by rw [h.2.2.1]; exact hb)]

theorem insertNode_insertNode (p : List Nat) (n : StrideNode) (bits sb v1 v2 : Nat)
    (h : NodeInv n) (hp : ∀ x ∈ p, x < 256) (hidx : index sb bits < 512) :
    insertNode (insertNode n p bits sb v1) p bits sb v2 = insertNode n p bits sb v2 := by
  induction p generalizing n with
  | nil => exact storePfx_storePfx n bits sb v1 v2 h hidx
  | cons b rest ih =>
    have hb256 : b < 256 := hp b (by simp)
    simp only [insertNode]
    rw [childOr_setChild_self n b _ h hb256,
      ih (childOr n b) (NodeInv_childOr n b h) (fun x hx => hp x (by simp [hx])),
      setChild_setChild n b _ _ h hb256]

/-! ### Normal forms for the API operations -/

theorem insDepth_le3 (L : Nat) (hL : L ≤ 32) : insDepth L ≤ 3 := by
  rw [insDepth]; split <;> omega

theorem insDepth_le15 (L : Nat) (hL : L ≤ 128) : insDepth L ≤ 15 := by
  rw [insDepth]; split <;> omega

theorem insBits_le8 (L : Nat) : insBits L ≤ 8 := by
  rw [insBits, insDepth]
  split
  · omega
  · omega

theorem insL_decomp (L : Nat) (h : 0 < L) :
    L = 8 * insDepth L + insBits L ∧ 1 ≤ insBits L := by
  rw [insBits, insDepth, if_neg (by omega : ¬ L = 0), if_neg (by omega : ¬ L = 0)]
  omega

theorem insDepth_mono (L1 L2 : Nat) (h : L1 ≤ L2) : insDepth L1 ≤ insDepth L2 := by
  rw [insDepth, insDepth]
  split <;> split <;> omega

theorem insert_core_eq (root : StrideNode) (bytes : List Nat) (plen v : Nat) :
    bart_insert_core root bytes plen v =
      insertNode root (bytes.take (insDepth plen)) (insBits plen)
        (if plen = 0 then 0 else bytes.getD (insDepth plen) 0) v := by
  rw [bart_insert_core]
  by_cases h0 : plen = 0
  · rw [h0]
    norm_num [insDepth, insBits]
  · have hd : insDepth plen = (plen - 1) / 8 := by rw [insDepth, if_neg h0]
    have hb : insBits plen = plen - 8 * ((plen - 1) / 8) := by
      rw [insBits, insDepth, if_neg h0, if_neg h0]
    rw [hd, hb, if_neg h0]
    by_cases hrem : 0 < plen % 8
    · rw [if_pos hrem]
      have e1 : plen / 8 = (plen - 1) / 8 := by omega
      have e2 : plen % 8 = plen - 8 * ((plen - 1) / 8) := by omega
      rw [e1, e2]
    · rw [if_neg hrem]
      have hfb : ¬ plen / 8 = 0 := by omega
      rw [if_neg hfb]
      have e1 : plen / 8 - 1 = (plen - 1) / 8 := by omega
      have e2 : plen - 8 * ((plen - 1) / 8) = 8 := by omega
      rw [e1, e2]

theorem bart_lookup4_fst (t : BartTable) (ip : Nat) :
    (bart_lookup4 t ip).1 = lookupWalk t.root4 (ipv4Bytes ip) (false, 0) := by
  rw [bart_lookup4]
  exact lookupWalkSt_fst (ipv4Bytes ip) t.root4 (false, 0)

theorem bart_lookup6_fst (t : BartTable) (addr : List Nat) :
    (bart_lookup6 t addr).1 = lookupWalk t.root6 addr (false, 0) := by
  rw [bart_lookup6]
  exact lookupWalkSt_fst addr t.root6 (false, 0)

theorem bart_insert4_ok (t : BartTable) (ip plen v : Nat) (h : plen ≤ 32) :
    bart_insert4 t ip plen v =
      (.ok, { t with root4 := bart_insert_core t.root4 (ipv4Bytes ip) plen v }) := by
  rw [bart_insert4, if_neg (by omega)]

theorem bart_insert6_ok (t : BartTable) (addr : List Nat) (plen v : Nat) (h : plen ≤ 128) :
    bart_insert6 t addr plen v =
      (.ok, { t with root6 := bart_insert_core t.root6 addr plen v }) := by
  rw [bart_insert6, if_neg (by omega)]

theorem ipv4Bytes_length (ip : Nat) : (ipv4Bytes ip).length = 4 := rfl

theorem ipv4Bytes_lt (ip : Nat) : ∀ x ∈ ipv4Bytes ip, x < 256 := by
  intro x hx
  simp only [ipv4Bytes, List.mem_cons, List.not_mem_nil, or_false] at hx
  rcases hx with rfl | rfl | rfl | rfl <;> exact Nat.mod_lt _ (by omega)

/-! ### Bit-level prefix agreement and its byte decomposition -/

/-- Two `w`-bit values agree on their first (most significant) `L` bits. -/
def matchesPfx (w L a p : Nat) : Prop := a >>> (w - L) = p >>> (w - L)

instance matchesPfx_dec (w L a p : Nat) : Decidable (matchesPfx w L a p) :=
  inferInstanceAs (Decidable (a >>> (w - L) = p >>> (w - L)))

theorem matchesPfx_div_le (w L a p k : Nat) (hm : matchesPfx w L a p) (hk : w - L ≤ k) :
    a / 2 ^ k = p / 2 ^ k := by
  rw [matchesPfx, Nat.shiftRight_eq_div_pow, Nat.shiftRight_eq_div_pow] at hm
  have h1 : (2 : Nat) ^ k = 2 ^ (w - L) * 2 ^ (k - (w - L)) := by
    rw [← pow_add]; congr 1; omega
  rw [h1, ← Nat.div_div_eq_div_mul, ← Nat.div_div_eq_div_mul, hm]

theorem ipv4_byte_eq (x y L i : Nat) (hm : matchesPfx 32 L x y) (h8 : 8 * (i + 1) ≤ L)
    (hL : L ≤ 32) : x >>> (24 - 8 * i) % 256 = y >>> (24 - 8 * i) % 256 := by
  rw [Nat.shiftRight_eq_div_pow, Nat.shiftRight_eq_div_pow,
    matchesPfx_div_le 32 L x y (24 - 8 * i) hm (by omega)]

theorem ipv4Bytes_getD (x d : Nat) (hd : d ≤ 3) :
    (ipv4Bytes x).getD d 0 = x >>> (24 - 8 * d) % 256 := by
  interval_cases d <;> simp [ipv4Bytes]

theorem ipv4_take_eq (x y L d : Nat) (hm : matchesPfx 32 L x y) (h8 : 8 * d ≤ L)
    (hL : L ≤ 32) (hd : d ≤ 3) : (ipv4Bytes x).take d = (ipv4Bytes y).take d := by
  interval_cases d
  · simp
  · have h0 := ipv4_byte_eq x y L 0 hm (by omega) hL
    norm_num at h0
    simp [ipv4Bytes, h0]
  · have h0 := ipv4_byte_eq x y L 0 hm (by omega) hL
    have h1 := ipv4_byte_eq x y L 1 hm (by omega) hL
    norm_num at h0 h1
    simp [ipv4Bytes, h0, h1]
  · have h0 := ipv4_byte_eq x y L 0 hm (by omega) hL
    have h1 := ipv4_byte_eq x y L 1 hm (by omega) hL
    have h2 := ipv4_byte_eq x y L 2 hm (by omega) hL
    norm_num at h0 h1 h2
    simp [ipv4Bytes, h0, h1, h2]

theorem ipv4_idx_eq (x y L d bits : Nat) (hm : matchesPfx 32 L x y) (hLd : L = 8 * d + bits)
    (hb1 : 1 ≤ bits) (hb8 : bits ≤ 8) (hL : L ≤ 32) :
    index ((ipv4Bytes x).getD d 0) bits = index ((ipv4Bytes y).getD d 0) bits := by
  have hd3 : d ≤ 3 := by omega
  rw [ipv4Bytes_getD x d hd3, ipv4Bytes_getD y d hd3]
  apply index_agree
  rw [Nat.shiftRight_eq_div_pow, Nat.shiftRight_eq_div_pow, Nat.shiftRight_eq_div_pow,
    Nat.shiftRight_eq_div_pow]
  have h256 : (256 : Nat) = 2 ^ (8 - bits) * 2 ^ bits := by
    rw [← pow_add]
    have he : 8 - bits + bits = 8 := by omega
    rw [he]
    norm_num
  rw [h256, Nat.mod_mul_right_div_self, Nat.mod_mul_right_div_self,
    Nat.div_div_eq_div_mul, Nat.div_div_eq_div_mul, ← pow_add]
  have he2 : 24 - 8 * d + (8 - bits) = 32 - L := by omega
  rw [he2, matchesPfx_div_le 32 L x y (32 - L) hm (le_refl _)]

theorem ipv4Bytes_getD_lt (a d : Nat) (hd : d ≤ 3) : (ipv4Bytes a).getD d 0 < 256 :=
  ipv4Bytes_lt a _ (getD_mem_of_lt _ d (by rw [ipv4Bytes_length]; omega))

theorem Covers_of_matches (x a L : Nat) (hm : matchesPfx 32 L a x) (hL : L ≤ 32) :
    Covers ((ipv4Bytes x).take (insDepth L)) (insBits L)
      (if L = 0 then 0 else (ipv4Bytes x).getD (insDepth L) 0) (ipv4Bytes a) := by
  have hd3 : insDepth L ≤ 3 := insDepth_le3 L hL
  have hlen : ((ipv4Bytes x).take (insDepth L)).length = insDepth L := by
    rw [List.length_take, ipv4Bytes_length]; omega
  refine ⟨?_, ?_, ?_⟩
  · rw [hlen]
    by_cases h0 : L = 0
    · rw [h0]
      norm_num [insDepth]
    · obtain ⟨hdec, hb1⟩ := insL_decomp L (by omega)
      exact ipv4_take_eq a x L (insDepth L) hm (by omega) hL hd3
  · rw [hlen, ipv4Bytes_length]; omega
  · rw [hlen]
    by_cases h0 : L = 0
    · rw [if_pos h0, h0, show insBits 0 = 0 from rfl, show insDepth 0 = 0 from rfl,
        index_zero _ (ipv4Bytes_getD_lt a 0 (by omega)), index_zero 0 (by omega)]
    · rw [if_neg h0]
      obtain ⟨hdec, hb1⟩ := insL_decomp L (by omega)
      exact ipv4_idx_eq a x L (insDepth L) (insBits L) hm hdec hb1 (insBits_le8 L) hL

theorem Covers_self_list (bytes : List Nat) (L : Nat) (hb : ∀ x ∈ bytes, x < 256)
    (hdlen : insDepth L < bytes.length) :
    Covers (bytes.take (insDepth L)) (insBits L)
      (if L = 0 then 0 else bytes.getD (insDepth L) 0) bytes := by
  have hlen : (bytes.take (insDepth L)).length = insDepth L := by
    rw [List.length_take]; omega
  refine ⟨by rw [hlen], by rw [hlen]; exact hdlen, ?_⟩
  rw [hlen]
  by_cases h0 : L = 0
  · have hlt : bytes.getD 0 0 < 256 := by
      refine hb _ (getD_mem_of_lt bytes 0 ?_)
      have := hdlen
      omega
    rw [if_pos h0, h0, show insBits 0 = 0 from rfl, show insDepth 0 = 0 from rfl,
      index_zero _ hlt, index_zero 0 (by omega)]
  · rw [if_neg h0]

/-! ### Claim theorems -/

theorem noCover_lookup4 (t : BartTable) (ip : Nat)
    (h : noCover t.root4 (ipv4Bytes ip) 0 = true) :
    (bart_lookup4 t ip).1 = (false, 0) := by
  rw [bart_lookup4_fst]
  exact noCover_walk (ipv4Bytes ip) t.root4 (false, 0) h (ipv4Bytes_lt ip)

theorem noCover_lookup6 (t : BartTable) (addr : List Nat)
    (h : noCover t.root6 addr 0 = true) (hb : ∀ x ∈ addr, x < 256) :
    (bart_lookup6 t addr).1 = (false, 0) := by
  rw [bart_lookup6_fst]
  exact noCover_walk addr t.root6 (false, 0) h hb

/-- C3: ancestors of `index(o, b)` under repeated halving are exactly
`index(o, b - k)`; and for bytes agreeing on their top `b1` bits,
`index(o, b1)` is reached from `index(o2, b2)` by `b2 - b1` halvings. -/
theorem claim_C3 (o o2 b1 b2 k : Nat) (ho : o < 256) (ho2 : o2 < 256) (hb1 : b1 ≤ 8)
    (hb2 : b2 ≤ 8) :
    (k ≤ b1 → (fun i => i / 2)^[k] (index o b1) = index o (b1 - k)) ∧
    (b1 < b2 → o >>> (8 - b1) = o2 >>> (8 - b1) →
      (fun i => i / 2)^[b2 - b1] (index o2 b2) = index o b1) := by
  constructor
  · intro hk
    exact index_halve_iter o b1 k hk hb1
  · intro hlt hag
    rw [index_halve_iter o2 b2 (b2 - b1) (by omega) hb2]
    have hbb : b2 - (b2 - b1) = b1 := by omega
    rw [hbb]
    exact (index_agree o o2 b1 hag).symm

theorem claim_C3_witness :
    ((fun i => i / 2)^[2] (index 176 4) = index 176 2) ∧
    ((fun i => i / 2)^[4] (index 181 8) = index 176 4) :=
  ⟨(claim_C3 176 181 4 8 2 (by decide) (by decide) (by decide) (by decide)).1 (by decide),
   (claim_C3 176 181 4 8 4 (by decide) (by decide) (by decide) (by decide)).2 (by decide)
     (by decide)⟩

/-- C4: the Complete-Binary-Tree index is `(1 <<< b) + (o >>> (8 - b))`,
equals 1 at `b = 0`, ranges over 1..511, and attains 511 at `index(255, 8)`. -/
theorem claim_C4 :
    (∀ o b : Nat, o < 256 → b ≤ 8 →
      index o b = (1 <<< b) + (o >>> (8 - b)) ∧ index o 0 = 1 ∧
      1 ≤ index o b ∧ index o b ≤ 511) ∧ index 255 8 = 511 := by
  constructor
  · intro o b ho hb
    refine ⟨rfl, index_zero o ho, index_pos o b, ?_⟩
    have h1 := index_lt o b ho hb
    have h2 : 2 ^ (b + 1) ≤ 2 ^ 9 := Nat.pow_le_pow_right (by omega) (by omega)
    norm_num at h2
    omega
  · decide

theorem claim_C4_witness :
    index 10 3 = (1 <<< 3) + (10 >>> 5) ∧ index 10 0 = 1 ∧
      1 ≤ index 10 3 ∧ index 10 3 ≤ 511 :=
  claim_C4.1 10 3 (by decide) (by decide)

/-- C7: an insert whose prefix length exceeds the family bit width (32 for
IPv4, 128 for IPv6) returns the invalid-argument status and leaves the table
unchanged. -/
theorem claim_C7 (t : BartTable) (ip : Nat) (addr : List Nat) (p4 p6 v : Nat)
    (h4 : 32 < p4) (h6 : 128 < p6) :
    bart_insert4 t ip p4 v = (BartStatus.invalidArg, t) ∧
    bart_insert6 t addr p6 v = (BartStatus.invalidArg, t) :=
  ⟨by rw [bart_insert4, if_pos h4], by rw [bart_insert6, if_pos h6]⟩

theorem claim_C7_witness :
    bart_insert4 bart_create 5 33 7 = (BartStatus.invalidArg, bart_create) ∧
    bart_insert6 bart_create (List.replicate 16 0) 129 7 =
      (BartStatus.invalidArg, bart_create) :=
  claim_C7 bart_create 5 (List.replicate 16 0) 33 129 7 (by decide) (by decide)

/-- C9: lookup never mutates the trie: the table state returned by a lookup
is the table it was given (allocation is not observable in this embedding). -/
theorem claim_C9 (t : BartTable) (ip : Nat) (addr : List Nat) :
    (bart_lookup4 t ip).2 = t ∧ (bart_lookup6 t addr).2 = t := by
  constructor
  · rw [bart_lookup4]
    rw [lookupWalkSt_snd]
  · rw [bart_lookup6]
    rw [lookupWalkSt_snd]

/-- C8: an address covered by no inserted prefix of its family reports
found = false through the found flag (no error channel exists in the
result). -/
theorem claim_C8 (t : BartTable) (ip : Nat) (addr : List Nat)
    (h4 : noCover t.root4 (ipv4Bytes ip) 0 = true)
    (h6 : noCover t.root6 addr 0 = true) (hb : ∀ x ∈ addr, x < 256) :
    (bart_lookup4 t ip).1.1 = false ∧ (bart_lookup6 t addr).1.1 = false :=
  ⟨by rw [noCover_lookup4 t ip h4], by rw [noCover_lookup6 t addr h6 hb]⟩

theorem claim_C8_witness :
    (bart_lookup4 (bart_insert4 bart_create 167772160 8 1).2 184549376).1.1 = false ∧
    (bart_lookup6 (bart_insert4 bart_create 167772160 8 1).2
      (List.replicate 16 255)).1.1 = false :=
  claim_C8 (bart_insert4 bart_create 167772160 8 1).2 184549376
    (List.replicate 16 255) (by decide) (by decide) (by decide)

/-- C10: when no inserted prefix covers the queried address, the lookup
returns the pair (found = 0, value = 0): the not-found value is the fixed
value 0, matching the header comment. -/
theorem claim_C10 (t : BartTable) (ip : Nat) (addr : List Nat)
    (h4 : noCover t.root4 (ipv4Bytes ip) 0 = true)
    (h6 : noCover t.root6 addr 0 = true) (hb : ∀ x ∈ addr, x < 256) :
    (bart_lookup4 t ip).1 = (false, 0) ∧ (bart_lookup6 t addr).1 = (false, 0) :=
  ⟨noCover_lookup4 t ip h4, noCover_lookup6 t addr h6 hb⟩

theorem claim_C10_witness :
    (bart_lookup4 bart_create 167772160 ).1 = (false, 0) ∧
    (bart_lookup6 bart_create (List.replicate 16 1)).1 = (false, 0) :=
  claim_C10 bart_create 167772160 (List.replicate 16 1) (by decide) (by decide)
    (by decide)

/-- C2: round-trip exact match: inserting a valid triple into a fresh table
and looking up the same address bytes returns (found = true, value), for both
families. -/
theorem claim_C2 :
    (∀ ip plen v : Nat, plen ≤ 32 →
      (bart_lookup4 (bart_insert4 bart_create ip plen v).2 ip).1 = (true, v)) ∧
    (∀ (addr : List Nat) (plen v : Nat), addr.length = 16 → (∀ x ∈ addr, x < 256) →
      plen ≤ 128 →
      (bart_lookup6 (bart_insert6 bart_create addr plen v).2 addr).1 = (true, v)) := by
  constructor
  · intro ip plen v hp
    rw [bart_insert4_ok bart_create ip plen v hp, bart_lookup4_fst]
    show lookupWalk (bart_insert_core emptyNode (ipv4Bytes ip) plen v)
      (ipv4Bytes ip) (false, 0) = (true, v)
    rw [insert_core_eq]
    exact single_insert_lookup _ _ _ v (ipv4Bytes ip) (false, 0) (insBits_le8 plen)
      (Covers_self_list (ipv4Bytes ip) plen (ipv4Bytes_lt ip)
        (by rw [ipv4Bytes_length]; have := insDepth_le3 plen hp; omega))
      (ipv4Bytes_lt ip)
  · intro addr plen v hlen hb hp
    rw [bart_insert6_ok bart_create addr plen v hp, bart_lookup6_fst]
    show lookupWalk (bart_insert_core emptyNode addr plen v) addr (false, 0) = (true, v)
    rw [insert_core_eq]
    exact single_insert_lookup _ _ _ v addr (false, 0) (insBits_le8 plen)
      (Covers_self_list addr plen hb
        (by rw [hlen]; have := insDepth_le15 plen hp; omega))
      hb

theorem claim_C2_witness :
    (bart_lookup4 (bart_insert4 bart_create 3232235777 32 6).2 3232235777).1
      = (true, 6) ∧
    (bart_lookup6 (bart_insert6 bart_create (List.replicate 16 7) 128 11).2
      (List.replicate 16 7)).1 = (true, 11) :=
  ⟨claim_C2.1 3232235777 32 6 (by decide),
   claim_C2.2 (List.replicate 16 7) 128 11 (by decide) (by decide) (by decide)⟩

theorem index_lt512 (o bits : Nat) (ho : o < 256) (hb : bits ≤ 8) : index o bits < 512 := by
  have h1 := index_lt o bits ho hb
  have h2 : 2 ^ (bits + 1) ≤ 2 ^ 9 := Nat.pow_le_pow_right (by omega) (by omega)
  norm_num at h2
  omega

theorem default_insert_lookup (root : StrideNode) (bytes : List Nat) (V : Nat)
    (hinv : NodeInv root) (hnc : noCover root bytes 1 = true)
    (hb : ∀ x ∈ bytes, x < 256) (hne : bytes ≠ []) :
    lookupWalk (storePfx root 0 0 V) bytes (false, 0) = (true, V) := by
  cases bytes with
  | nil => exact absurd rfl hne
  | cons a rest =>
    rw [noCover, Bool.and_eq_true] at hnc
    obtain ⟨hcm, hrest⟩ := hnc
    have ha0 : a < 256 := hb a (by simp)
    have hidx : index 0 0 < 512 := by rw [index_zero 0 (by omega)]; omega
    have hmb : matchByte (storePfx root 0 0 V) a = (true, V) := by
      rw [matchByte]
      refine walk_hits _ _ a V ha0 8 8 0 (le_refl 8) (by omega) rfl ?_ ?_
      · show pGet (storePfx root 0 0 V) (index a 0) = some V
        rw [index_zero a ha0, ← index_zero 0 (by omega : (0 : Nat) < 256)]
        exact pGet_storePfx_self root 0 0 V hinv hidx
      · intro b hb1 hb8
        have hneq : index a b ≠ index 0 0 := by
          have h1 := index_ge a b
          have h2 : (2 : Nat) ≤ 2 ^ b := by
            calc (2 : Nat) = 2 ^ 1 := rfl
            _ ≤ 2 ^ b := Nat.pow_le_pow_right (by omega) (by omega)
          rw [index_zero 0 (by omega)]
          omega
        show pGet (storePfx root 0 0 V) (index a b) = none
        rw [pGet_storePfx_ne root 0 0 V _ hinv hidx hneq]
        exact chainMiss_elim root a 1 hcm b (by omega) hb8
    cases hc : childFor root a with
    | none =>
      have hcf : childFor (storePfx root 0 0 V) a = none := by rw [childFor_storePfx, hc]
      simp [lookupWalk, hmb, hcf]
    | some c =>
      rw [hc] at hrest
      have hcf : childFor (storePfx root 0 0 V) a = some c := by rw [childFor_storePfx, hc]
      simp only [lookupWalk, hmb, hcf]
      simp only [show ((true, V)).1 = true from rfl, if_true]
      exact noCover_walk rest c (true, V) hrest (fun x hx => hb x (by simp [hx]))

/-- C6: inserting the length-0 (default-route) prefix with value V makes
every address of the family whose walk meets no more specific stored entry
return (true, V). -/
theorem claim_C6 (t : BartTable) (ip ip0 V : Nat) (addr addr0 : List Nat)
    (hinv4 : NodeInv t.root4) (hnc4 : noCover t.root4 (ipv4Bytes ip) 1 = true)
    (hinv6 : NodeInv t.root6) (hnc6 : noCover t.root6 addr 1 = true)
    (hb : ∀ x ∈ addr, x < 256) (hne : addr ≠ []) :
    (bart_lookup4 (bart_insert4 t ip0 0 V).2 ip).1 = (true, V) ∧
    (bart_lookup6 (bart_insert6 t addr0 0 V).2 addr).1 = (true, V) := by
  constructor
  · rw [bart_insert4_ok t ip0 0 V (by omega), bart_lookup4_fst]
    show lookupWalk (bart_insert_core t.root4 (ipv4Bytes ip0) 0 V)
      (ipv4Bytes ip) (false, 0) = (true, V)
    have hcore : bart_insert_core t.root4 (ipv4Bytes ip0) 0 V = storePfx t.root4 0 0 V := by
      rw [insert_core_eq]
      norm_num [insDepth, insBits, insertNode]
    rw [hcore]
    exact default_insert_lookup t.root4 (ipv4Bytes ip) V hinv4 hnc4 (ipv4Bytes_lt ip)
      (by simp [ipv4Bytes])
  · rw [bart_insert6_ok t addr0 0 V (by omega), bart_lookup6_fst]
    show lookupWalk (bart_insert_core t.root6 addr0 0 V) addr (false, 0) = (true, V)
    have hcore : bart_insert_core t.root6 addr0 0 V = storePfx t.root6 0 0 V := by
      rw [insert_core_eq]
      norm_num [insDepth, insBits, insertNode]
    rw [hcore]
    exact default_insert_lookup t.root6 addr V hinv6 hnc6 hb hne

theorem claim_C6_witness :
    (bart_lookup4 (bart_insert4 bart_create 0 0 9).2 4294967295).1 = (true, 9) ∧
    (bart_lookup6 (bart_insert6 bart_create (List.replicate 16 0) 0 9).2
      (List.replicate 16 255)).1 = (true, 9) :=
  claim_C6 bart_create 4294967295 0 9 (List.replicate 16 255) (List.replicate 16 0)
    emptyNode_inv (by decide) emptyNode_inv (by decide) (by decide) (by decide)

/-- C5: re-inserting the same exact prefix with a second value yields exactly
the table a single insert of the second value yields (so only the second
value is retrievable and no duplicate entry accumulates), and the insert
succeeds. -/
theorem claim_C5 (t : BartTable) (ip plen v1 v2 : Nat) (hinv : NodeInv t.root4)
    (hp : plen ≤ 32) :
    bart_insert4 (bart_insert4 t ip plen v1).2 ip plen v2 = bart_insert4 t ip plen v2 ∧
    (bart_insert4 t ip plen v2).1 = BartStatus.ok := by
  have hbyte : (if plen = 0 then 0 else (ipv4Bytes ip).getD (insDepth plen) 0) < 256 := by
    by_cases h0 : plen = 0
    · rw [if_pos h0]; omega
    · rw [if_neg h0]
      exact ipv4Bytes_getD_lt ip (insDepth plen) (insDepth_le3 plen hp)
  have hroot : bart_insert_core (bart_insert_core t.root4 (ipv4Bytes ip) plen v1)
      (ipv4Bytes ip) plen v2 = bart_insert_core t.root4 (ipv4Bytes ip) plen v2 := by
    rw [insert_core_eq, insert_core_eq, insert_core_eq]
    exact insertNode_insertNode _ t.root4 _ _ v1 v2 hinv
      (fun x hx => ipv4Bytes_lt ip x (List.mem_of_mem_take hx))
      (index_lt512 _ _ hbyte (insBits_le8 plen))
  constructor
  · rw [bart_insert4_ok t ip plen v1 hp]
    show bart_insert4
      { t with root4 := bart_insert_core t.root4 (ipv4Bytes ip) plen v1 } ip plen v2 = _
    rw [bart_insert4_ok _ ip plen v2 hp, bart_insert4_ok t ip plen v2 hp]
    dsimp only
    rw [hroot]
  · rw [bart_insert4_ok t ip plen v2 hp]

theorem claim_C5_witness :
    (bart_insert4 (bart_insert4 bart_create 3232235777 32 5).2 3232235777 32 6 =
      bart_insert4 bart_create 3232235777 32 6) ∧
    (bart_insert4 bart_create 3232235777 32 6).1 = BartStatus.ok :=
  claim_C5 bart_create 3232235777 32 5 6 emptyNode_inv (by decide)

/-- C1: longest-match precedence: after inserting P1 of length L1 and then
P2 of length L2 > L1 with P2 contained in P1 (their first L1 bits agree),
looking up any address matching both returns P2's value. -/
theorem claim_C1 (ip1 ip2 a L1 L2 v1 v2 : Nat) (h12 : L1 < L2) (hL2 : L2 ≤ 32)
    (hm21 : matchesPfx 32 L1 ip2 ip1) (hma1 : matchesPfx 32 L1 a ip1)
    (hma2 : matchesPfx 32 L2 a ip2) :
    (bart_lookup4 (bart_insert4 (bart_insert4 bart_create ip1 L1 v1).2 ip2 L2 v2).2 a).1
      = (true, v2) := by
  have hL1 : L1 ≤ 32 := by omega
  rw [bart_insert4_ok bart_create ip1 L1 v1 hL1]
  show (bart_lookup4 (bart_insert4
    { bart_create with root4 := bart_insert_core emptyNode (ipv4Bytes ip1) L1 v1 }
    ip2 L2 v2).2 a).1 = (true, v2)
  rw [bart_insert4_ok _ ip2 L2 v2 hL2, bart_lookup4_fst]
  show lookupWalk (bart_insert_core (bart_insert_core emptyNode (ipv4Bytes ip1) L1 v1)
    (ipv4Bytes ip2) L2 v2) (ipv4Bytes a) (false, 0) = (true, v2)
  rw [insert_core_eq, insert_core_eq]
  have hd12 : insDepth L1 ≤ insDepth L2 := insDepth_mono L1 L2 (by omega)
  have hd13 : insDepth L1 ≤ 3 := insDepth_le3 L1 hL1
  have hd23 : insDepth L2 ≤ 3 := insDepth_le3 L2 hL2
  have hp1eq : (ipv4Bytes ip2).take (insDepth L1) = (ipv4Bytes ip1).take (insDepth L1) := by
    by_cases h0 : L1 = 0
    · rw [h0]
      norm_num [insDepth]
    · obtain ⟨hdec, hb1⟩ := insL_decomp L1 (by omega)
      exact ipv4_take_eq ip2 ip1 L1 (insDepth L1) hm21 (by omega) hL1 hd13
  have hsplit : (ipv4Bytes ip2).take (insDepth L2) =
      (ipv4Bytes ip1).take (insDepth L1) ++
      ((ipv4Bytes ip2).drop (insDepth L1)).take (insDepth L2 - insDepth L1) := by
    rw [← hp1eq]
    conv_lhs => rw [show insDepth L2 = insDepth L1 + (insDepth L2 - insDepth L1)
      from by omega, List.take_add]
  rw [hsplit]
  have hcov1 := Covers_of_matches ip1 a L1 hma1 hL1
  have hcov2 := Covers_of_matches ip2 a L2 hma2 hL2
  rw [hsplit] at hcov2
  have hext : ((ipv4Bytes ip2).drop (insDepth L1)).take (insDepth L2 - insDepth L1) = []
      → insBits L1 < insBits L2 := by
    intro he
    have hlen := congrArg List.length he
    rw [List.length_take, List.length_drop, ipv4Bytes_length] at hlen
    simp only [List.length_nil] at hlen
    have hdd : insDepth L2 = insDepth L1 := by omega
    by_cases h0 : L1 = 0
    · have hb2 : 1 ≤ insBits L2 := (insL_decomp L2 (by omega)).2
      rw [h0, show insBits 0 = 0 from rfl]
      omega
    · obtain ⟨hdec1, hb1⟩ := insL_decomp L1 (by omega)
      obtain ⟨hdec2, hb2⟩ := insL_decomp L2 (by omega)
      omega
  exact two_insert_lookup _ _ _ _ v1 _ _ v2 (ipv4Bytes a) (false, 0)
    (insBits_le8 L1) (insBits_le8 L2) hcov1 hcov2 hext (ipv4Bytes_lt a)

theorem claim_C1_witness :
    (bart_lookup4 (bart_insert4 (bart_insert4 bart_create 167772160 8 1).2
      167837696 16 2).2 167838211).1 = (true, 2) :=
  claim_C1 167772160 167837696 167838211 8 16 1 2 (by decide) (by decide) (by decide)
    (by decide) (by decide)

end Bart
